import Mathlib

/-!
Verification of the indoor multi-floor routing engine (utils/dijkstra.ts).

The TypeScript source is shallowly embedded below.  JavaScript `Map`s are
modelled as association lists with insertion-order-preserving `set`
(updating an existing key keeps its position, a new key is appended),
which matches the iteration-order semantics of `Map`.  JavaScript numbers
holding distances are modelled as `ℚ` for finite values and `JsNum`
(a finite rational or `Infinity`) where `Infinity` can occur.  The JavaScript truthiness idiom
`x || Infinity` (which sends both `undefined` and `0` to `Infinity`) and
`x || null` (which sends `undefined`, `null` and the empty string to
`null`) are modelled explicitly by `jsOrInf`, `jsOrInfQ` and
`jsOrNullStr`.  The unbounded `while` loops of the source are modelled
with an explicitly sufficient amount of fuel.
-/

attribute [local semireducible] Rat.add

/-- Association-list lookup with JavaScript `Map.get` semantics
(first binding wins; keys are unique in maps built by `jsSet`). -/
def jsGet {α : Type} (m : List (String × α)) (k : String) : Option α :=
  match m with
  | [] => none
  | (k', v) :: rest => if k' = k then some v else jsGet rest k

/-- JavaScript `Map.set`: update an existing key in place (keeping its
insertion position) or append a new binding at the end. -/
def jsSet {α : Type} (m : List (String × α)) (k : String) (v : α) : List (String × α) :=
  match m with
  | [] => [(k, v)]
  | (k', v') :: rest => if k' = k then (k, v) :: rest else (k', v') :: jsSet rest k v

/-- Boolean membership in a list of strings (JavaScript `Set.has` /
`Array.includes` over identifiers). -/
def strMem (x : String) : List String → Bool
  | [] => false
  | y :: t => if y = x then true else strMem x t

/-- Node record of the source (`interface Node`). -/
structure Node where
  qr_id : String
  node_id : String
  floor : Int
  x : ℚ
  y : ℚ
  type : String
  label : String
deriving DecidableEq, Repr

/-- Edge record of the source (`interface Edge`); `from` is a Lean
keyword, so the field is called `from_`. -/
structure Edge where
  from_ : String
  to_ : String
  distance : ℚ
deriving DecidableEq, Repr

/-- A JavaScript number as used for distances: a finite value or
`Infinity` (NaN cannot arise: all inputs are rationals and the only
operation is addition). -/
inductive JsNum where
  | fin (q : ℚ)
  | inf
deriving DecidableEq, Repr

/-- JavaScript `<` on distances: `Infinity` is larger than every finite
value and `Infinity < Infinity` is false. -/
def jsLt : JsNum → JsNum → Bool
  | JsNum.fin a, JsNum.fin b => a < b
  | JsNum.fin _, JsNum.inf => true
  | JsNum.inf, _ => false

/-- Result record of the source (`interface PathResult`). -/
structure PathResult where
  path : List String
  distance : JsNum
  floorChange : Bool
  targetFloor : Option Int := none
  message : Option String := none
deriving DecidableEq, Repr

/-- The graph: node index and adjacency index (`class Graph`). -/
structure Graph where
  nodes : List (String × Node)
  adjacencyList : List (String × List (String × ℚ))
deriving DecidableEq, Repr

/-- `addEdge(from, to, distance)`: inserts only when the *source* key
already has an adjacency entry; the target key is not checked. -/
def graphAddEdge (adj : List (String × List (String × ℚ))) (from_ to_ : String) (d : ℚ) :
    List (String × List (String × ℚ)) :=
  match jsGet adj from_ with
  | some inner => jsSet adj from_ (jsSet inner to_ d)
  | none => adj

/-- One iteration of the constructor's edge loop: both directions. -/
def applyEdge (adj : List (String × List (String × ℚ))) (e : Edge) :
    List (String × List (String × ℚ)) :=
  graphAddEdge (graphAddEdge adj e.from_ e.to_ e.distance) e.to_ e.from_ e.distance

/-- The constructor's `edges.forEach` loop. -/
def foldEdges : List Edge → List (String × List (String × ℚ)) → List (String × List (String × ℚ))
  | [], adj => adj
  | e :: rest, adj => foldEdges rest (applyEdge adj e)

/-- The constructor's `nodes.forEach` loop: populate the node index and
an empty adjacency entry per node. -/
def foldNodes : List Node → List (String × Node) × List (String × List (String × ℚ)) →
    List (String × Node) × List (String × List (String × ℚ))
  | [], acc => acc
  | n :: rest, acc => foldNodes rest (jsSet acc.1 n.node_id n, jsSet acc.2 n.node_id [])

/-- `new Graph(nodes, edges)`. -/
def mkGraph (nodes : List Node) (edges : List Edge) : Graph :=
  let init := foldNodes nodes ([], [])
  ⟨init.1, foldEdges edges init.2⟩

/-- The stair category string. -/
def stairType : String := "stair"

/-- Filter of `getStairsOnFloor`, in node-index iteration order. -/
def stairsFilter : List (String × Node) → Int → List Node
  | [], _ => []
  | p :: rest, f =>
    if p.2.floor = f ∧ p.2.type = stairType then p.2 :: stairsFilter rest f
    else stairsFilter rest f

/-- `getStairsOnFloor(floor)`. -/
def getStairsOnFloor (g : Graph) (floor : Int) : List Node :=
  stairsFilter g.nodes floor

/-- Node-index keys, in iteration order. -/
def nodeKeys (g : Graph) : List String :=
  g.nodes.map Prod.fst

/-- Length of a node's adjacency entry (0 when absent). -/
def degOf (g : Graph) (k : String) : Nat :=
  ((jsGet g.adjacencyList k).getD []).length

/-- Total adjacency size still chargeable to unvisited node keys; a
potential function bounding the remaining work of the BFS loops. -/
def remAdj (g : Graph) (vis : List String) : Nat :=
  (((nodeKeys g).filter (fun k => !(strMem k vis))).map (degOf g)).sum

/-- Fuel that provably outlasts every traversal loop of the source
(1 initial queue entry + one pop per possible push + slack). -/
def loopFuel (g : Graph) : Nat :=
  remAdj g [] + 2

/-- Stair-only neighbor push of `canStairReachFloor`: every adjacency
entry whose target is a known stair-category node, in iteration order. -/
def stairPushes (g : Graph) : List (String × ℚ) → List String
  | [] => []
  | nb :: rest =>
    match jsGet g.nodes nb.1 with
    | some n => if n.type = stairType then nb.1 :: stairPushes g rest else stairPushes g rest
    | none => stairPushes g rest

/-- The `while` loop of `canStairReachFloor`: breadth-first over the
stair network.  `none` means the fuel ran out (shown impossible for
`loopFuel` below). -/
def stairLoop (g : Graph) (targetFloor : Int) : Nat → List String → List String → Option Bool
  | 0, _, _ => none
  | _ + 1, [], _ => some false
  | fuel + 1, cur :: qrest, visited =>
    if strMem cur visited then stairLoop g targetFloor fuel qrest visited
    else
      match jsGet g.nodes cur with
      | none => stairLoop g targetFloor fuel qrest (cur :: visited)
      | some currentStair =>
        if currentStair.floor = targetFloor then some true
        else
          match jsGet g.adjacencyList cur with
          | none => stairLoop g targetFloor fuel qrest (cur :: visited)
          | some neighbors =>
            stairLoop g targetFloor fuel (qrest ++ stairPushes g neighbors) (cur :: visited)

/-- `canStairReachFloor(stairId, targetFloor)`. -/
def canStairReachFloor (g : Graph) (stairId : String) (targetFloor : Int) : Bool :=
  (stairLoop g targetFloor (loopFuel g) [stairId] []).getD false

/-- JavaScript `distances.get(x) || Infinity` on a map storing
numbers-or-Infinity: an absent binding and a stored `0` (falsy!) both
give `Infinity`. -/
def jsOrInf (x : Option JsNum) : JsNum :=
  match x with
  | none => JsNum.inf
  | some (JsNum.fin d) => if d = 0 then JsNum.inf else JsNum.fin d
  | some JsNum.inf => JsNum.inf

/-- JavaScript `distances.get(x) || Infinity` on a map storing finite
numbers. -/
def jsOrInfQ (x : Option ℚ) : JsNum :=
  match x with
  | none => JsNum.inf
  | some d => if d = 0 then JsNum.inf else JsNum.fin d

/-- JavaScript `previous.get(x) || null` on a map storing
string-or-null: absent binding, stored null and stored empty string
(falsy!) all give null. -/
def jsOrNullStr (x : Option (Option String)) : Option String :=
  match x with
  | some (some s) => if s = "" then none else some s
  | _ => none

/-- Stable insertion into a queue sorted by ascending distance: the new
entry goes after all entries with a smaller-or-equal key. -/
def insertByDist (p : String × ℚ) : List (String × ℚ) → List (String × ℚ)
  | [] => [p]
  | q :: rest => if q.2 ≤ p.2 then q :: insertByDist p rest else p :: q :: rest

/-- Worker of `sortByDist`: insert the input entries left to right. -/
def sortByDistAux : List (String × ℚ) → List (String × ℚ) → List (String × ℚ)
  | [], acc => acc
  | p :: rest, acc => sortByDistAux rest (insertByDist p acc)

/-- `priorityQueue.sort((a, b) => a[1] - b[1])`: the stable ascending
sort guaranteed by ECMAScript, realised as a left-to-right stable
insertion sort. -/
def sortByDist (l : List (String × ℚ)) : List (String × ℚ) :=
  sortByDistAux l []

/-- The neighbor relaxation loop of `getSameFloorPath`, iterating the
current node's adjacency entries in order.  Returns the updated
distance map, predecessor map, and the entries pushed on the queue
(in push order). -/
def relaxAll (visited : List String) (cur : String) (cd : ℚ) :
    List (String × ℚ) → List (String × JsNum) → List (String × Option String) →
    List (String × ℚ) →
    List (String × JsNum) × List (String × Option String) × List (String × ℚ)
  | [], dist, prev, pushed => (dist, prev, pushed)
  | nb :: rest, dist, prev, pushed =>
    if strMem nb.1 visited then relaxAll visited cur cd rest dist prev pushed
    else
      if jsLt (JsNum.fin (cd + nb.2)) (jsOrInf (jsGet dist nb.1)) then
        relaxAll visited cur cd rest (jsSet dist nb.1 (JsNum.fin (cd + nb.2)))
          (jsSet prev nb.1 (some cur)) (pushed ++ [(nb.1, cd + nb.2)])
      else relaxAll visited cur cd rest dist prev pushed

/-- The `while` loop of `getSameFloorPath`: lazy-deletion Dijkstra with
a re-sorted list as priority queue and early exit at the target.
Returns the final distance and predecessor maps. -/
def dijkstraLoop (g : Graph) (endId : String) :
    Nat → List (String × ℚ) → List String → List (String × JsNum) →
    List (String × Option String) →
    List (String × JsNum) × List (String × Option String)
  | 0, _, _, dist, prev => (dist, prev)
  | fuel + 1, queue, visited, dist, prev =>
    match sortByDist queue with
    | [] => (dist, prev)
    | (currentNode, currentDistance) :: rest =>
      if strMem currentNode visited then dijkstraLoop g endId fuel rest visited dist prev
      else
        if currentNode = endId then (dist, prev)
        else
          match jsGet g.adjacencyList currentNode with
          | none => dijkstraLoop g endId fuel rest (currentNode :: visited) dist prev
          | some neighbors =>
            match relaxAll (currentNode :: visited) currentNode currentDistance neighbors dist prev [] with
            | (dist', prev', pushed) =>
              dijkstraLoop g endId fuel (rest ++ pushed) (currentNode :: visited) dist' prev'

/-- Path reconstruction of `getSameFloorPath`: walk predecessor links
backward from the target, prepending each node. -/
def buildPath : Nat → List (String × Option String) → Option String → List String → List String
  | 0, _, _, acc => acc
  | _ + 1, _, none, acc => acc
  | fuel + 1, prev, some c, acc => buildPath fuel prev (jsOrNullStr (jsGet prev c)) (c :: acc)

/-- Fuel for path reconstruction. -/
def buildFuel (g : Graph) : Nat :=
  g.nodes.length + loopFuel g

/-- Distance/predecessor initialisation of `getSameFloorPath`: every
node on the start node's floor gets distance Infinity and predecessor
null; other floors are skipped. -/
def initDistPrev : List (String × Node) → Int →
    List (String × JsNum) × List (String × Option String) →
    List (String × JsNum) × List (String × Option String)
  | [], _, acc => acc
  | p :: rest, f, acc =>
    if p.2.floor = f then
      initDistPrev rest f (jsSet acc.1 p.1 JsNum.inf, jsSet acc.2 p.1 none)
    else initDistPrev rest f acc

/-- `getSameFloorPath(start, end)`. -/
def getSameFloorPath (g : Graph) (start endId : String) : Option PathResult :=
  match jsGet g.nodes start, jsGet g.nodes endId with
  | some startNode, some _ =>
    match initDistPrev g.nodes startNode.floor ([], []) with
    | (dist0, prev0) =>
      match dijkstraLoop g endId (loopFuel g) [(start, 0)] []
          (jsSet dist0 start (JsNum.fin 0)) prev0 with
      | (dist, prev) =>
        let path := buildPath (buildFuel g) prev (some endId) []
        if path.length = 1 ∧ path.head? ≠ some start then none
        else some ⟨path, jsOrInf (jsGet dist endId), false, none, none⟩
  | _, _ => none

/-- State of the nearest-connector selection loops of
`getCrossFloorPath` (`nearestStair`, `minDistance`, `pathToStair`,
`stairDistance`). -/
structure SelSt where
  nearestStair : Option Node
  minDistance : JsNum
  pathToStair : List String
  stairDistance : JsNum
deriving DecidableEq, Repr

/-- Initial selection state. -/
def selInit : SelSt :=
  ⟨none, JsNum.inf, [], JsNum.fin 0⟩

/-- First selection loop of `getCrossFloorPath`: only connectors that
pass the connectivity probe are candidates. -/
def selLoopProbe (g : Graph) (originId : String) (targetFloor : Int) :
    List Node → SelSt → SelSt
  | [], st => st
  | stair :: rest, st =>
    selLoopProbe g originId targetFloor rest
      (if canStairReachFloor g stair.node_id targetFloor then
        match getSameFloorPath g originId stair.node_id with
        | some r =>
          if jsLt r.distance st.minDistance then ⟨some stair, r.distance, r.path, r.distance⟩
          else st
        | none => st
      else st)

/-- Fallback selection loop of `getCrossFloorPath`: any connector,
regardless of reachability. -/
def selLoopAny (g : Graph) (originId : String) : List Node → SelSt → SelSt
  | [], st => st
  | stair :: rest, st =>
    selLoopAny g originId rest
      (match getSameFloorPath g originId stair.node_id with
      | some r =>
        if jsLt r.distance st.minDistance then ⟨some stair, r.distance, r.path, r.distance⟩
        else st
      | none => st)

/-- Message when the origin floor has no stair node. -/
def noStairsMsg (f : Int) : String :=
  ("No stairs found on floor " ++ toString f) ++ ". Please use elevator or find alternative route."

/-- Message when a connector reaching the target floor was selected. -/
def useStairToFloorMsg (label : String) (f : Int) : String :=
  ("Please use " ++ label ++ " to go to floor " ++ toString f) ++ ", then scan a QR code to continue navigation."

/-- Degraded message for the fallback connector. -/
def useStairGenericMsg (label : String) : String :=
  "Please use " ++ label ++ " to access other floors, then scan a QR code to continue navigation."

/-- Message when no connector could be selected at all. -/
def noAccessMsg (f : Int) : String :=
  ("Cannot find accessible path to stairs on floor " ++ toString f) ++ "."

/-- `getCrossFloorPath(startNode, endNode)`. -/
def getCrossFloorPath (g : Graph) (startNode endNode : Node) : PathResult :=
  let stairsOnCurrentFloor := getStairsOnFloor g startNode.floor
  if stairsOnCurrentFloor.length = 0 then
    ⟨[], JsNum.fin 0, true, some endNode.floor, some (noStairsMsg startNode.floor)⟩
  else
    let st1 := selLoopProbe g startNode.node_id endNode.floor stairsOnCurrentFloor selInit
    match st1.nearestStair with
    | some stair =>
      ⟨st1.pathToStair, st1.stairDistance, true, some endNode.floor,
        some (useStairToFloorMsg stair.label endNode.floor)⟩
    | none =>
      let st2 := selLoopAny g startNode.node_id stairsOnCurrentFloor st1
      match st2.nearestStair with
      | some stair =>
        ⟨st2.pathToStair, st2.stairDistance, true, some endNode.floor,
          some (useStairGenericMsg stair.label)⟩
      | none =>
        ⟨[], JsNum.fin 0, true, some endNode.floor, some (noAccessMsg startNode.floor)⟩

/-- `getShortestPath(start, end)`: dispatch on the endpoint floors. -/
def getShortestPath (g : Graph) (start endId : String) : Option PathResult :=
  match jsGet g.nodes start, jsGet g.nodes endId with
  | some startNode, some endNode =>
    if startNode.floor ≠ endNode.floor then some (getCrossFloorPath g startNode endNode)
    else getSameFloorPath g start endId
  | _, _ => none

/-- Relaxation of `getReachableNodes`: enqueue a neighbor only when the
new distance is within the budget and improves the recorded one. -/
def reachRelax (maxD cd : ℚ) :
    List (String × ℚ) → List (String × ℚ) → List (String × ℚ) →
    List (String × ℚ) × List (String × ℚ)
  | [], dist, pushed => (dist, pushed)
  | nb :: rest, dist, pushed =>
    if cd + nb.2 ≤ maxD then
      if jsLt (JsNum.fin (cd + nb.2)) (jsOrInfQ (jsGet dist nb.1)) then
        reachRelax maxD cd rest (jsSet dist nb.1 (cd + nb.2)) (pushed ++ [(nb.1, cd + nb.2)])
      else reachRelax maxD cd rest dist pushed
    else reachRelax maxD cd rest dist pushed

/-- The `while` loop of `getReachableNodes`: plain FIFO queue (no
sorting), collecting each newly visited known node other than the
start. -/
def reachLoop (g : Graph) (start : String) (maxD : ℚ) :
    Nat → List (String × ℚ) → List String → List (String × ℚ) → List Node → List Node
  | 0, _, _, _, res => res
  | _ + 1, [], _, _, res => res
  | fuel + 1, (cur, cd) :: qrest, visited, dist, res =>
    if strMem cur visited then reachLoop g start maxD fuel qrest visited dist res
    else
      let res' := match jsGet g.nodes cur with
        | some node => if cur ≠ start then res ++ [node] else res
        | none => res
      match jsGet g.adjacencyList cur with
      | none => reachLoop g start maxD fuel qrest (cur :: visited) dist res'
      | some neighbors =>
        match reachRelax maxD cd neighbors dist [] with
        | (dist', pushed) =>
          reachLoop g start maxD fuel (qrest ++ pushed) (cur :: visited) dist' res'

/-- `getReachableNodes(start, maxDistance)`. -/
def getReachableNodes (g : Graph) (start : String) (maxD : ℚ) : List Node :=
  match jsGet g.nodes start with
  | none => []
  | some _ => reachLoop g start maxD (loopFuel g) [(start, 0)] [] [(start, 0)] []

/-- Reachability through the connector network: following adjacency
entries whose target is a known stair-category node, starting from a
known current node (the traversal of §4.4 / `canStairReachFloor`). -/
inductive StairReach (g : Graph) (s : String) : String → Prop
  | refl : StairReach g s s
  | step {u v : String} {w : ℚ} {nu nv : Node} {nbrs : List (String × ℚ)} :
      StairReach g s u → jsGet g.nodes u = some nu →
      jsGet g.adjacencyList u = some nbrs → (v, w) ∈ nbrs →
      jsGet g.nodes v = some nv → nv.type = stairType → StairReach g s v

/-- A walk along adjacency entries with its accumulated weight. -/
inductive AdjWalk (g : Graph) (s : String) : String → ℚ → Prop
  | refl : AdjWalk g s s 0
  | snoc {u v : String} {c w : ℚ} {nbrs : List (String × ℚ)} :
      AdjWalk g s u c → jsGet g.adjacencyList u = some nbrs → (v, w) ∈ nbrs →
      AdjWalk g s v (c + w)

/-- Decidable check: every adjacency key is a known node (true of every
graph built by the constructor). -/
def adjKeysKnown (g : Graph) : Bool :=
  g.adjacencyList.all (fun p => (jsGet g.nodes p.1).isSome)

/-- Decidable check: every adjacency entry between two known nodes
connects nodes of equal floor (no cross-floor edges). -/
def sameFloorEdges (g : Graph) : Bool :=
  g.adjacencyList.all (fun p => p.2.all (fun nb =>
    match jsGet g.nodes p.1, jsGet g.nodes nb.1 with
    | some nu, some nv => nu.floor = nv.floor
    | _, _ => true))

/-- Convenience constructor for concrete test nodes. -/
def mkNode (id : String) (floor : Int) (ty lab : String) : Node :=
  ⟨id, id, floor, 0, 0, ty, lab⟩

/-- C1 input: a single node. -/
def gC1 : Graph :=
  mkGraph [mkNode ("A") 1 ("room") ("A")] []

/-- C2 input: one floor, a zero-detour diamond plus a far node. -/
def gC2 : Graph :=
  mkGraph
    [mkNode ("S") 1 ("room") ("S"), mkNode ("A") 1 ("room") ("A"),
     mkNode ("B") 1 ("room") ("B"), mkNode ("C") 1 ("room") ("C")]
    [⟨"S", "A", 5⟩, ⟨"S", "B", 1⟩, ⟨"B", "A", 1⟩, ⟨"A", "C", 10⟩]

/-- C3 input: two floor-1 rooms joined only through a floor-2 node. -/
def gC3 : Graph :=
  mkGraph
    [mkNode ("A") 1 ("room") ("A"), mkNode ("S1") 1 ("stair") ("S1"),
     mkNode ("S2") 2 ("stair") ("S2"), mkNode ("T") 1 ("room") ("T")]
    [⟨"A", "S1", 1⟩, ⟨"S1", "S2", 1⟩, ⟨"S2", "T", 1⟩]

/-- C3 witness input: a one-floor graph. -/
def gW3 : Graph :=
  mkGraph [mkNode ("A") 1 ("room") ("A"), mkNode ("B") 1 ("room") ("B")] [⟨"A", "B", 2⟩]

/-- C4 input: one node plus an edge to an unknown identifier. -/
def gC4 : Graph :=
  mkGraph [mkNode ("A") 1 ("room") ("A")] [⟨"A", "X", 1⟩]

/-- C5 input: the origin itself is the stair connecting the floors. -/
def gC5 : Graph :=
  mkGraph
    [mkNode ("S1") 1 ("stair") ("Stairs A"), mkNode ("S2") 2 ("stair") ("Stairs B")]
    [⟨"S1", "S2", 10⟩]

/-- C7 witness input: two floors, no stairs at all. -/
def gC7 : Graph :=
  mkGraph [mkNode ("A") 1 ("room") ("A"), mkNode ("B") 2 ("room") ("B")] [⟨"A", "B", 4⟩]

/-- C8 input: the only stair on the origin floor is the origin itself
and it reaches no other stair. -/
def gC8 : Graph :=
  mkGraph [mkNode ("S1") 1 ("stair") ("Stairs A"), mkNode ("B") 2 ("shop") ("B")] []

/-- C9 input: zero-weight edges expose the falsy-distance slip. -/
def gC9 : Graph :=
  mkGraph
    [mkNode ("A") 1 ("room") ("A"), mkNode ("B") 1 ("room") ("B"),
     mkNode ("C") 1 ("room") ("C")]
    [⟨"A", "C", 0⟩, ⟨"A", "B", 0⟩, ⟨"C", "B", 5⟩]

/-- C10 witness input: two floors, no stairs. -/
def gC10 : Graph :=
  mkGraph [mkNode ("P") 1 ("room") ("P"), mkNode ("Q") 3 ("room") ("Q")] []

/-- C9: evaluation of both query directions on `gC9` (zero-weight
edges): `GetShortestPath("A","B")` returns distance 5 while
`GetShortestPath("B","A")` returns distance Infinity, refuting the
claimed undirected symmetry; the asymmetry stems from the
`distances.get(x) || Infinity` falsy-zero slip. -/
theorem getShortestPath_asymmetric_distance :
    getShortestPath gC9 ("A") ("B") =
      some ⟨[("A"), ("C"), ("B")], JsNum.fin 5, false, none, none⟩ ∧
    getShortestPath gC9 ("B") ("A") = some ⟨[("B"), ("A")], JsNum.inf, false, none, none⟩ ∧
    JsNum.fin 5 ≠ JsNum.inf := by
  refine ⟨by decide, by decide, by decide⟩

/-- C5: on `gC5` the origin `S1` is itself a stair on the origin floor,
the connectivity probe to floor 2 succeeds, and a same-floor path from
the origin to that connector exists (`[S1]`), yet the returned result is
an empty path with the no-access message: the candidate's recorded
distance evaluates to Infinity (`0 || Infinity`), so `distance <
Infinity` fails and the connector is never selected, contradicting the
claimed minimum-distance selection. -/
theorem getCrossFloorPath_origin_stair_not_selected :
    canStairReachFloor gC5 ("S1") 2 = true ∧
    getSameFloorPath gC5 ("S1") ("S1") = some ⟨[("S1")], JsNum.inf, false, none, none⟩ ∧
    getShortestPath gC5 ("S1") ("S2") =
      some ⟨[], JsNum.fin 0, true, some 2, some (noAccessMsg 1)⟩ := by
  refine ⟨by decide, by decide, by decide⟩

/-- C8: on `gC8` no connector passes the probe, and a connector (the
origin stair itself) is reachable from the origin on the same floor, so
per the claim the fallback should return the path to that nearest
connector with the degraded message; instead the code returns an empty
path with the no-access message, because the self-path distance
evaluates to Infinity (`0 || Infinity`) and is never accepted by the
strict comparison.  (The branch does still set `floorChange` and
`targetFloor` as claimed.) -/
theorem getCrossFloorPath_fallback_divergence :
    canStairReachFloor gC8 ("S1") 2 = false ∧
    getSameFloorPath gC8 ("S1") ("S1") = some ⟨[("S1")], JsNum.inf, false, none, none⟩ ∧
    getShortestPath gC8 ("S1") ("B") =
      some ⟨[], JsNum.fin 0, true, some 2, some (noAccessMsg 1)⟩ := by
  refine ⟨by decide, by decide, by decide⟩

/-- C3 counterexample: on `gC3` both endpoints `A` and `T` sit on
floor 1, yet the path returned by the same-floor pathfinder passes
through `S2`, a node on floor 2 — the search is not restricted to the
endpoints' floor subgraph, because relaxation follows every adjacency
edge and an uninitialised off-floor node reads as Infinity. -/
theorem getSameFloorPath_leaves_floor :
    getSameFloorPath gC3 ("A") ("T") =
      some ⟨[("A"), ("S1"), ("S2"), ("T")], JsNum.fin 3, false, none, none⟩ ∧
    jsGet gC3.nodes ("A") = some (mkNode ("A") 1 ("room") ("A")) ∧
    jsGet gC3.nodes ("T") = some (mkNode ("T") 1 ("room") ("T")) ∧
    jsGet gC3.nodes ("S2") = some (mkNode ("S2") 2 ("stair") ("S2")) ∧
    (2 : Int) ≠ 1 := by
  refine ⟨by decide, by decide, by decide, by decide, by decide⟩

/-- C4 counterexample: the edge `A → X` has the unknown endpoint `X`,
yet construction records the adjacency entry `A ↦ {X ↦ 1}`: the claimed
"no adjacency entry created (in either direction)" is false, and the
neighbor key `X` does not refer to a node of the index. -/
theorem mkGraph_dangling_neighbor_recorded :
    jsGet gC4.adjacencyList ("A") = some [(("X"), (1 : ℚ))] ∧
    jsGet gC4.nodes ("X") = none := by
  refine ⟨by decide, by decide⟩

/-- Looking up an absent key. -/
theorem jsGet_eq_none_iff {α : Type} (m : List (String × α)) (k : String) :
    jsGet m k = none ↔ k ∉ m.map Prod.fst := by
  induction m with
  | nil => simp [jsGet]
  | cons p rest ih =>
    rw [jsGet]
    by_cases h : p.1 = k
    · simp [h]
    · simp [h, ih, Ne.symm h]

/-- A successful lookup is one of the bindings. -/
theorem mem_of_jsGet_eq_some {α : Type} {m : List (String × α)} {k : String} {v : α}
    (h : jsGet m k = some v) : (k, v) ∈ m := by
  induction m with
  | nil => simp [jsGet] at h
  | cons p rest ih =>
    rw [jsGet] at h
    by_cases hp : p.1 = k
    · subst hp
      simp at h
      subst h
      simp
    · simp [hp] at h
      exact List.mem_cons_of_mem _ (ih h)

/-- Lookup after update, same key. -/
theorem jsGet_jsSet_self {α : Type} (m : List (String × α)) (k : String) (v : α) :
    jsGet (jsSet m k v) k = some v := by
  induction m with
  | nil => simp [jsSet, jsGet]
  | cons p rest ih =>
    rw [jsSet]
    by_cases h : p.1 = k
    · simp [h, jsGet]
    · simp [h, jsGet, ih]

/-- Lookup after update, different key. -/
theorem jsGet_jsSet_ne {α : Type} (m : List (String × α)) {k k' : String} (v : α)
    (h : k' ≠ k) : jsGet (jsSet m k v) k' = jsGet m k' := by
  induction m with
  | nil => simp [jsSet, jsGet, Ne.symm h]
  | cons p rest ih =>
    obtain ⟨a, b⟩ := p
    rw [jsSet]
    by_cases hp : a = k
    · subst hp
      simp [jsGet, Ne.symm h]
    · simp only [if_neg hp]
      by_cases hk' : a = k'
      · simp [jsGet, hk']
      · simp [jsGet, hk', ih]

/-- Every binding of an updated map is the new binding or an old one. -/
theorem mem_jsSet {α : Type} {m : List (String × α)} {k : String} {v : α} {p : String × α}
    (h : p ∈ jsSet m k v) : p = (k, v) ∨ p ∈ m := by
  induction m with
  | nil => simpa [jsSet] using h
  | cons q rest ih =>
    rw [jsSet] at h
    by_cases hq : q.1 = k
    · simp [hq] at h
      rcases h with h | h
      · exact Or.inl h
      · exact Or.inr (List.mem_cons_of_mem _ h)
    · simp [hq] at h
      rcases h with h | h
      · exact Or.inr (by simp [h])
      · rcases ih h with h' | h'
        · exact Or.inl h'
        · exact Or.inr (List.mem_cons_of_mem _ h')

/-- Boolean string membership agrees with list membership. -/
theorem strMem_iff_mem (x : String) (l : List String) : strMem x l = true ↔ x ∈ l := by
  induction l with
  | nil => simp [strMem]
  | cons y t ih =>
    rw [strMem]
    by_cases h : y = x
    · simp [h]
    · simp [h, ih, Ne.symm h]

/-- A key with a `some` lookup is present in an updated map as well. -/
theorem jsGet_jsSet_isSome {α : Type} (m : List (String × α)) (k k' : String) (v : α) :
    (jsGet (jsSet m k v) k').isSome = true ↔ k' = k ∨ (jsGet m k').isSome = true := by
  by_cases h : k' = k
  · subst h
    simp [jsGet_jsSet_self]
  · rw [jsGet_jsSet_ne _ _ h]
    simp [h]

/-- If no node of the index is a stair on floor `f`, the stair filter is
empty. -/
theorem stairsFilter_eq_nil (l : List (String × Node)) (f : Int)
    (h : ∀ p ∈ l, p.2.floor = f → p.2.type ≠ stairType) : stairsFilter l f = [] := by
  induction l with
  | nil => rfl
  | cons p rest ih =>
    rw [stairsFilter]
    have hp := h p (by simp)
    have : ¬ (p.2.floor = f ∧ p.2.type = stairType) := by
      rintro ⟨h1, h2⟩
      exact hp h1 h2
    rw [if_neg this]
    exact ih (fun q hq => h q (List.mem_cons_of_mem _ hq))

/-- C7: a cross-floor request whose origin floor carries no
stair-category node yields the empty path, distance 0,
`floorChange = true`, the destination's floor, and the message that
names the origin floor (the message literally embeds the floor number
between a fixed prefix and suffix). -/
theorem getCrossFloorPath_no_stairs_result (g : Graph) (s e : String) (ns ne : Node)
    (hs : jsGet g.nodes s = some ns) (he : jsGet g.nodes e = some ne)
    (hf : ns.floor ≠ ne.floor)
    (hst : ∀ p ∈ g.nodes, p.2.floor = ns.floor → p.2.type ≠ stairType) :
    getShortestPath g s e =
      some ⟨[], JsNum.fin 0, true, some ne.floor, some (noStairsMsg ns.floor)⟩ ∧
    ∃ pre post, noStairsMsg ns.floor = (pre ++ toString ns.floor) ++ post := by
  have hnil : stairsFilter g.nodes ns.floor = [] := stairsFilter_eq_nil _ _ hst
  constructor
  · rw [getShortestPath, hs, he]
    dsimp only
    rw [if_pos hf]
    simp [getCrossFloorPath, getStairsOnFloor, hnil]
  · exact ⟨"No stairs found on floor ", ". Please use elevator or find alternative route.", rfl⟩

/-- Witness for C7 at a concrete graph. -/
theorem getCrossFloorPath_no_stairs_result_witness :
    jsGet gC7.nodes ("A") = some (mkNode ("A") 1 ("room") ("A")) ∧
    getShortestPath gC7 ("A") ("B") =
      some ⟨[], JsNum.fin 0, true, some 2,
        some (noStairsMsg 1)⟩ := by
  refine ⟨by decide, ?_⟩
  have h := getCrossFloorPath_no_stairs_result gC7 ("A") ("B")
    (mkNode ("A") 1 ("room") ("A")) (mkNode ("B") 2 ("room") ("B"))
    (by decide) (by decide) (by decide) (by decide)
  exact h.1

/-- Path reconstruction never shortens the accumulator. -/
theorem buildPath_length (fuel : Nat) :
    ∀ (prev : List (String × Option String)) (cur : Option String) (acc : List String),
    acc.length ≤ (buildPath fuel prev cur acc).length := by
  induction fuel with
  | zero => intro prev cur acc; simp [buildPath]
  | succ n ih =>
    intro prev cur acc
    cases cur with
    | none => simp [buildPath]
    | some c =>
      rw [buildPath]
      calc acc.length ≤ (c :: acc).length := by simp
        _ ≤ _ := ih prev (jsOrNullStr (jsGet prev c)) (c :: acc)

/-- With at least one unit of fuel and a non-null start, reconstruction
returns a nonempty path. -/
theorem buildPath_ne_nil (n : Nat) (prev : List (String × Option String)) (c : String) :
    buildPath (n + 1) prev (some c) [] ≠ [] := by
  rw [buildPath]
  intro hnil
  have h := buildPath_length n prev (jsOrNullStr (jsGet prev c)) [c]
  rw [hnil] at h
  simp at h

/-- Every successful same-floor result carries a nonempty path (the
reconstruction loop always pushes the target first). -/
theorem getSameFloorPath_path_ne_nil {g : Graph} {s e : String} {pr : PathResult}
    (h : getSameFloorPath g s e = some pr) : pr.path ≠ [] := by
  rw [getSameFloorPath] at h
  cases hs : jsGet g.nodes s with
  | none => rw [hs] at h; cases he : jsGet g.nodes e <;> simp [he] at h
  | some ns =>
    rw [hs] at h
    cases he : jsGet g.nodes e with
    | none => rw [he] at h; simp at h
    | some ne =>
      rw [he] at h
      dsimp only at h
      rcases hI : initDistPrev g.nodes ns.floor ([], []) with ⟨dist0, prev0⟩
      rw [hI] at h
      dsimp only at h
      rcases hD : dijkstraLoop g e (loopFuel g) [(s, 0)] [] (jsSet dist0 s (JsNum.fin 0)) prev0
        with ⟨dist, prev⟩
      rw [hD] at h
      dsimp only at h
      split at h
      · exact absurd h (by simp)
      · have hpr : pr.path = buildPath (buildFuel g) prev (some e) [] := by
          have := Option.some.inj h
          rw [← this]
        rw [hpr]
        have hb : buildFuel g = (g.nodes.length + remAdj g [] + 1) + 1 := by
          rw [buildFuel, loopFuel]
          ring
        rw [hb]
        exact buildPath_ne_nil _ prev e

/-- Invariant of the connector-selection state: a selected connector
always comes with the nonempty path that was found to it. -/
def SelGood (st : SelSt) : Prop :=
  ∀ n, st.nearestStair = some n → st.pathToStair ≠ []

/-- The probing selection loop preserves the invariant. -/
theorem selLoopProbe_good (g : Graph) (o : String) (tf : Int) :
    ∀ (l : List Node) (st : SelSt), SelGood st → SelGood (selLoopProbe g o tf l st) := by
  intro l
  induction l with
  | nil => intro st h; simpa [selLoopProbe] using h
  | cons stair rest ih =>
    intro st h
    rw [selLoopProbe]
    apply ih
    by_cases hc : canStairReachFloor g stair.node_id tf
    · rw [if_pos hc]
      cases hp : getSameFloorPath g o stair.node_id with
      | none => exact h
      | some r =>
        dsimp only
        by_cases hlt : jsLt r.distance st.minDistance
        · rw [if_pos hlt]
          intro n hn
          exact getSameFloorPath_path_ne_nil hp
        · rw [if_neg hlt]; exact h
    · rw [if_neg hc]; exact h

/-- The fallback selection loop preserves the invariant. -/
theorem selLoopAny_good (g : Graph) (o : String) :
    ∀ (l : List Node) (st : SelSt), SelGood st → SelGood (selLoopAny g o l st) := by
  intro l
  induction l with
  | nil => intro st h; simpa [selLoopAny] using h
  | cons stair rest ih =>
    intro st h
    rw [selLoopAny]
    apply ih
    cases hp : getSameFloorPath g o stair.node_id with
    | none => exact h
    | some r =>
      dsimp only
      by_cases hlt : jsLt r.distance st.minDistance
      · rw [if_pos hlt]
        intro n hn
        exact getSameFloorPath_path_ne_nil hp
      · rw [if_neg hlt]; exact h

/-- An empty-path cross-floor result always carries distance 0. -/
theorem getCrossFloorPath_empty_path_zero (g : Graph) (ns ne : Node) (pr : PathResult)
    (h : getCrossFloorPath g ns ne = pr) (hp : pr.path = []) : pr.distance = JsNum.fin 0 := by
  rw [getCrossFloorPath] at h
  dsimp only at h
  split at h
  · rw [← h]
  · split at h
    · rename_i stair heq
      exfalso
      have hgood : SelGood (selLoopProbe g ns.node_id ne.floor (getStairsOnFloor g ns.floor) selInit) :=
        selLoopProbe_good g ns.node_id ne.floor _ selInit (by intro n hn; simp [selInit] at hn)
      have := hgood stair heq
      rw [← h] at hp
      exact this hp
    · split at h
      · rename_i stair heq
        exfalso
        have hgood1 : SelGood (selLoopProbe g ns.node_id ne.floor (getStairsOnFloor g ns.floor) selInit) :=
          selLoopProbe_good g ns.node_id ne.floor _ selInit (by intro n hn; simp [selInit] at hn)
        have hgood2 := selLoopAny_good g ns.node_id (getStairsOnFloor g ns.floor) _ hgood1
        have := hgood2 stair heq
        rw [← h] at hp
        exact this hp
      · rw [← h]

/-- C10: whenever the cross-floor router returns an empty path (no
stair on the origin floor, or no connector accepted by the selection
loops), the `distance` field is exactly 0 — never Infinity or an error
value.  (The two non-empty branches reuse a same-floor result, whose
path is never empty.) -/
theorem crossFloor_empty_path_distance_zero (g : Graph) (s e : String) (ns ne : Node)
    (hs : jsGet g.nodes s = some ns) (he : jsGet g.nodes e = some ne)
    (hf : ns.floor ≠ ne.floor) (pr : PathResult)
    (hr : getShortestPath g s e = some pr) (hp : pr.path = []) :
    pr.distance = JsNum.fin 0 := by
  rw [getShortestPath, hs, he] at hr
  dsimp only at hr
  rw [if_pos hf] at hr
  exact getCrossFloorPath_empty_path_zero g ns ne pr (Option.some.inj hr) hp

/-- Witness for C10 at a concrete graph. -/
theorem crossFloor_empty_path_distance_zero_witness :
    getShortestPath gC10 ("P") ("Q") =
      some ⟨[], JsNum.fin 0, true, some 3, some (noStairsMsg 1)⟩ ∧
    JsNum.fin 0 = JsNum.fin 0 := by
  refine ⟨by decide, ?_⟩
  exact (crossFloor_empty_path_distance_zero gC10 ("P") ("Q")
    (mkNode ("P") 1 ("room") ("P")) (mkNode ("Q") 3 ("room") ("Q"))
    (by decide) (by decide) (by decide)
    ⟨[], JsNum.fin 0, true, some 3, some (noStairsMsg 1)⟩ (by decide) (by decide)).symm ▸ rfl

/-- Every entry pushed by the reachability relaxation corresponds to an
adjacency entry and respects the budget. -/
theorem reachRelax_pushed (maxD cd : ℚ) :
    ∀ (nbrs : List (String × ℚ)) (dist pushed0 : List (String × ℚ)),
    ∀ p ∈ (reachRelax maxD cd nbrs dist pushed0).2,
      p ∈ pushed0 ∨ ∃ w, (p.1, w) ∈ nbrs ∧ p.2 = cd + w ∧ cd + w ≤ maxD := by
  intro nbrs
  induction nbrs with
  | nil => intro dist pushed0 p hp; exact Or.inl (by simpa [reachRelax] using hp)
  | cons nb rest ih =>
    intro dist pushed0 p hp
    rw [reachRelax] at hp
    by_cases h1 : cd + nb.2 ≤ maxD
    · rw [if_pos h1] at hp
      by_cases h2 : jsLt (JsNum.fin (cd + nb.2)) (jsOrInfQ (jsGet dist nb.1))
      · rw [if_pos h2] at hp
        rcases ih _ _ p hp with h | ⟨w, hw, he, hle⟩
        · rcases List.mem_append.mp h with h | h
          · exact Or.inl h
          · simp at h
            subst h
            exact Or.inr ⟨nb.2, by simp, by simp, h1⟩
        · exact Or.inr ⟨w, List.mem_cons_of_mem _ hw, he, hle⟩
      · rw [if_neg h2] at hp
        rcases ih _ _ p hp with h | ⟨w, hw, he, hle⟩
        · exact Or.inl h
        · exact Or.inr ⟨w, List.mem_cons_of_mem _ hw, he, hle⟩
    · rw [if_neg h1] at hp
      rcases ih _ _ p hp with h | ⟨w, hw, he, hle⟩
      · exact Or.inl h
      · exact Or.inr ⟨w, List.mem_cons_of_mem _ hw, he, hle⟩

/-- Soundness invariant of the reachability loop: every collected node
is a known non-start node whose queue entry carried a real walk within
the budget. -/
theorem reachLoop_sound (g : Graph) (start : String) (maxD : ℚ) :
    ∀ (fuel : Nat) (q : List (String × ℚ)) (visited : List String)
      (dist : List (String × ℚ)) (res : List Node),
    (∀ p ∈ q, p.2 ≤ maxD ∧ AdjWalk g start p.1 p.2) →
    (∀ n ∈ res, ∃ p c, jsGet g.nodes p = some n ∧ p ≠ start ∧ c ≤ maxD ∧ AdjWalk g start p c) →
    ∀ n ∈ reachLoop g start maxD fuel q visited dist res,
      ∃ p c, jsGet g.nodes p = some n ∧ p ≠ start ∧ c ≤ maxD ∧ AdjWalk g start p c := by
  intro fuel
  induction fuel with
  | zero => intro q visited dist res hq hres n hn; exact hres n (by simpa [reachLoop] using hn)
  | succ m ih =>
    intro q visited dist res hq hres n hn
    match q with
    | [] => exact hres n (by simpa [reachLoop] using hn)
    | (cur, cd) :: qrest =>
      rw [reachLoop] at hn
      have hqrest : ∀ p ∈ qrest, p.2 ≤ maxD ∧ AdjWalk g start p.1 p.2 :=
        fun p hp => hq p (List.mem_cons_of_mem _ hp)
      have hcur := hq (cur, cd) (by simp)
      by_cases hv : strMem cur visited
      · rw [if_pos hv] at hn
        exact ih qrest visited dist res hqrest hres n hn
      · rw [if_neg hv] at hn
        dsimp only at hn
        have hres' : ∀ x ∈ (match jsGet g.nodes cur with
            | some node => if cur ≠ start then res ++ [node] else res
            | none => res),
            ∃ p c, jsGet g.nodes p = some x ∧ p ≠ start ∧ c ≤ maxD ∧ AdjWalk g start p c := by
          cases hnode : jsGet g.nodes cur with
          | none => exact hres
          | some node =>
            intro x hx
            dsimp only at hx
            by_cases hne : cur ≠ start
            · rw [if_pos hne] at hx
              rcases List.mem_append.mp hx with hx | hx
              · exact hres x hx
              · simp at hx
                subst hx
                exact ⟨cur, cd, hnode, hne, hcur.1, hcur.2⟩
            · rw [if_neg hne] at hx
              exact hres x hx
        cases hadj : jsGet g.adjacencyList cur with
        | none =>
          rw [hadj] at hn
          dsimp only at hn
          exact ih qrest (cur :: visited) dist _ hqrest hres' n hn
        | some neighbors =>
          rw [hadj] at hn
          dsimp only at hn
          rcases hR : reachRelax maxD cd neighbors dist [] with ⟨dist', pushed⟩
          rw [hR] at hn
          dsimp only at hn
          have hqp : ∀ p ∈ qrest ++ pushed, p.2 ≤ maxD ∧ AdjWalk g start p.1 p.2 := by
            intro p hp
            rcases List.mem_append.mp hp with hp | hp
            · exact hqrest p hp
            · have := reachRelax_pushed maxD cd neighbors dist [] p (by rw [hR]; exact hp)
              rcases this with h | ⟨w, hw, he, hle⟩
              · simp at h
              · rw [he]
                exact ⟨hle, AdjWalk.snoc hcur.2 hadj hw⟩
          exact ih (qrest ++ pushed) (cur :: visited) dist' _ hqp hres' n hn

/-- C2 amended: every node returned by `GetReachableNodes(start, maxD)`
(for a non-negative budget) is a known node distinct from the start and
admits a walk from the start of total weight at most `maxD` — i.e. its
shortest-path distance is within the budget.  (Soundness only: the
counterexample shows completeness fails.) -/
theorem getReachableNodes_sound (g : Graph) (start : String) (maxD : ℚ) (h0 : 0 ≤ maxD) :
    ∀ n ∈ getReachableNodes g start maxD,
      ∃ p c, jsGet g.nodes p = some n ∧ p ≠ start ∧ c ≤ maxD ∧ AdjWalk g start p c := by
  intro n hn
  rw [getReachableNodes] at hn
  cases hstart : jsGet g.nodes start with
  | none => rw [hstart] at hn; simp at hn
  | some s0 =>
    rw [hstart] at hn
    dsimp only at hn
    refine reachLoop_sound g start maxD (loopFuel g) [(start, 0)] [] [(start, 0)] [] ?_ ?_ n hn
    · intro p hp
      simp at hp
      subst hp
      exact ⟨h0, AdjWalk.refl⟩
    · intro x hx
      simp at hx

/-- Witness for the amended C2 at a concrete graph and element. -/
theorem getReachableNodes_sound_witness :
    (0 : ℚ) ≤ 12 ∧
    ∃ p c, jsGet gC2.nodes p = some (mkNode ("A") 1 ("room") ("A")) ∧ p ≠ ("S") ∧
      c ≤ 12 ∧ AdjWalk gC2 ("S") p c := by
  refine ⟨by norm_num, ?_⟩
  exact getReachableNodes_sound gC2 ("S") 12 (by norm_num)
    (mkNode ("A") 1 ("room") ("A")) (by decide)

/-- C2 counterexample: on `gC2` with budget 12, node `C` has
shortest-path distance 12 ≤ 12 (walk S→B→A→C with weights 1+1+10) and
node `S` (the start) has distance 0 ≤ 12, yet neither occurs in the
returned list — the claimed "exactly the nodes within the budget" is
false: the start is excluded by construction and the FIFO expansion
discards the improved distance of an already-visited node, so `C` is
never discovered within the budget. -/
theorem getReachableNodes_misses_qualifying_node :
    (∃ c : ℚ, c ≤ 12 ∧ AdjWalk gC2 ("S") ("C") c) ∧
    (jsGet gC2.nodes ("C")).isSome = true ∧
    (∀ n ∈ getReachableNodes gC2 ("S") 12, n.node_id ≠ ("C")) ∧
    (∃ c : ℚ, c ≤ 12 ∧ AdjWalk gC2 ("S") ("S") c) ∧
    (∀ n ∈ getReachableNodes gC2 ("S") 12, n.node_id ≠ ("S")) := by
  refine ⟨⟨((0 : ℚ) + 1) + 1 + 10, by norm_num, ?_⟩, by decide, by decide,
    ⟨0, by norm_num, AdjWalk.refl⟩, by decide⟩
  have w1 : AdjWalk gC2 ("S") ("B") ((0 : ℚ) + 1) :=
    AdjWalk.snoc AdjWalk.refl (show jsGet gC2.adjacencyList ("S") =
      some [(("A"), (5 : ℚ)), (("B"), (1 : ℚ))] by decide) (by decide)
  have w2 : AdjWalk gC2 ("S") ("A") (((0 : ℚ) + 1) + 1) :=
    AdjWalk.snoc w1 (show jsGet gC2.adjacencyList ("B") =
      some [(("S"), (1 : ℚ)), (("A"), (1 : ℚ))] by decide) (by decide)
  exact AdjWalk.snoc w2 (show jsGet gC2.adjacencyList ("A") =
    some [(("S"), (5 : ℚ)), (("B"), (1 : ℚ)), (("C"), (10 : ℚ))] by decide) (by decide)

/-- Membership is preserved by ordered insertion. -/
theorem mem_insertByDist (p x : String × ℚ) :
    ∀ l : List (String × ℚ), x ∈ insertByDist p l ↔ x = p ∨ x ∈ l := by
  intro l
  induction l with
  | nil => simp [insertByDist]
  | cons q rest ih =>
    rw [insertByDist]
    by_cases h : q.2 ≤ p.2
    · rw [if_pos h]
      simp only [List.mem_cons, ih]
      try tauto
    · rw [if_neg h]
      simp only [List.mem_cons]
      try tauto

/-- Membership is preserved by the sorting worker. -/
theorem mem_sortByDistAux (x : String × ℚ) :
    ∀ (l acc : List (String × ℚ)), x ∈ sortByDistAux l acc ↔ x ∈ l ∨ x ∈ acc := by
  intro l
  induction l with
  | nil => intro acc; simp [sortByDistAux]
  | cons p rest ih =>
    intro acc
    rw [sortByDistAux, ih, mem_insertByDist]
    simp only [List.mem_cons]
    tauto

/-- The queue sort is a permutation as far as membership goes. -/
theorem mem_sortByDist (x : String × ℚ) (l : List (String × ℚ)) :
    x ∈ sortByDist l ↔ x ∈ l := by
  rw [sortByDist, mem_sortByDistAux]
  simp

/-- Every entry pushed by the Dijkstra relaxation comes from the
neighbor list being iterated. -/
theorem relaxAll_pushed (visited : List String) (cur : String) (cd : ℚ) :
    ∀ (nbrs : List (String × ℚ)) (dist : List (String × JsNum))
      (prev : List (String × Option String)) (pushed0 : List (String × ℚ)),
    ∀ p ∈ (relaxAll visited cur cd nbrs dist prev pushed0).2.2,
      p ∈ pushed0 ∨ ∃ w, (p.1, w) ∈ nbrs := by
  intro nbrs
  induction nbrs with
  | nil => intro dist prev pushed0 p hp; exact Or.inl (by simpa [relaxAll] using hp)
  | cons nb rest ih =>
    intro dist prev pushed0 p hp
    rw [relaxAll] at hp
    by_cases h1 : strMem nb.1 visited
    · rw [if_pos h1] at hp
      rcases ih _ _ _ p hp with h | ⟨w, hw⟩
      · exact Or.inl h
      · exact Or.inr ⟨w, List.mem_cons_of_mem _ hw⟩
    · rw [if_neg h1] at hp
      by_cases h2 : jsLt (JsNum.fin (cd + nb.2)) (jsOrInf (jsGet dist nb.1))
      · rw [if_pos h2] at hp
        rcases ih _ _ _ p hp with h | ⟨w, hw⟩
        · rcases List.mem_append.mp h with h | h
          · exact Or.inl h
          · simp at h
            subst h
            exact Or.inr ⟨nb.2, by simp⟩
        · exact Or.inr ⟨w, List.mem_cons_of_mem _ hw⟩
      · rw [if_neg h2] at hp
        rcases ih _ _ _ p hp with h | ⟨w, hw⟩
        · exact Or.inl h
        · exact Or.inr ⟨w, List.mem_cons_of_mem _ hw⟩

/-- Every predecessor binding after the Dijkstra relaxation is an old
binding or points at the current node. -/
theorem relaxAll_prev (visited : List String) (cur : String) (cd : ℚ) :
    ∀ (nbrs : List (String × ℚ)) (dist : List (String × JsNum))
      (prev : List (String × Option String)) (pushed0 : List (String × ℚ)),
    ∀ kv ∈ (relaxAll visited cur cd nbrs dist prev pushed0).2.1,
      kv ∈ prev ∨ kv.2 = some cur := by
  intro nbrs
  induction nbrs with
  | nil => intro dist prev pushed0 kv hkv; exact Or.inl (by simpa [relaxAll] using hkv)
  | cons nb rest ih =>
    intro dist prev pushed0 kv hkv
    rw [relaxAll] at hkv
    by_cases h1 : strMem nb.1 visited
    · rw [if_pos h1] at hkv
      exact ih _ _ _ kv hkv
    · rw [if_neg h1] at hkv
      by_cases h2 : jsLt (JsNum.fin (cd + nb.2)) (jsOrInf (jsGet dist nb.1))
      · rw [if_pos h2] at hkv
        rcases ih _ _ _ kv hkv with h | h
        · rcases mem_jsSet h with h | h
          · exact Or.inr (by rw [h])
          · exact Or.inl h
        · exact Or.inr h
      · rw [if_neg h2] at hkv
        exact ih _ _ _ kv hkv

/-- The Dijkstra loop only ever records predecessors that are known
nodes of the search floor, provided adjacency keys are known nodes and
no adjacency edge crosses floors. -/
theorem dijkstraLoop_prev_good (g : Graph) (endId : String) (F : Int)
    (hk : adjKeysKnown g = true) (hfl : sameFloorEdges g = true) :
    ∀ (fuel : Nat) (queue : List (String × ℚ)) (visited : List String)
      (dist : List (String × JsNum)) (prev : List (String × Option String)),
    (∀ p ∈ queue, ∀ nx, jsGet g.nodes p.1 = some nx → nx.floor = F) →
    (∀ kv ∈ prev, ∀ y, kv.2 = some y → ∃ ny, jsGet g.nodes y = some ny ∧ ny.floor = F) →
    ∀ kv ∈ (dijkstraLoop g endId fuel queue visited dist prev).2, ∀ y, kv.2 = some y →
      ∃ ny, jsGet g.nodes y = some ny ∧ ny.floor = F := by
  intro fuel
  induction fuel with
  | zero => intro queue visited dist prev hq hprev kv hkv; exact hprev kv (by simpa [dijkstraLoop] using hkv)
  | succ m ih =>
    intro queue visited dist prev hq hprev kv hkv
    rw [dijkstraLoop] at hkv
    cases hsort : sortByDist queue with
    | nil =>
      rw [hsort] at hkv
      exact hprev kv hkv
    | cons top rest =>
      obtain ⟨cur, cd⟩ := top
      rw [hsort] at hkv
      dsimp only at hkv
      have hcurq : (cur, cd) ∈ queue := (mem_sortByDist _ _).mp (by rw [hsort]; simp)
      have hrestq : ∀ p ∈ rest, ∀ nx, jsGet g.nodes p.1 = some nx → nx.floor = F := by
        intro p hp
        exact hq p ((mem_sortByDist _ _).mp (by rw [hsort]; exact List.mem_cons_of_mem _ hp))
      by_cases hv : strMem cur visited
      · rw [if_pos hv] at hkv
        exact ih rest visited dist prev hrestq hprev kv hkv
      · rw [if_neg hv] at hkv
        by_cases hend : cur = endId
        · rw [if_pos hend] at hkv
          exact hprev kv hkv
        · rw [if_neg hend] at hkv
          cases hadj : jsGet g.adjacencyList cur with
          | none =>
            rw [hadj] at hkv
            dsimp only at hkv
            exact ih rest (cur :: visited) dist prev hrestq hprev kv hkv
          | some neighbors =>
            rw [hadj] at hkv
            dsimp only at hkv
            have hcknown : ∃ nc, jsGet g.nodes cur = some nc ∧ nc.floor = F := by
              have hmem := mem_of_jsGet_eq_some hadj
              have := (List.all_eq_true.mp hk) _ hmem
              simp at this
              rcases Option.isSome_iff_exists.mp this with ⟨nc, hnc⟩
              exact ⟨nc, hnc, hq _ hcurq nc hnc⟩
            obtain ⟨nc, hnc, hncF⟩ := hcknown
            rcases hRel : relaxAll (cur :: visited) cur cd neighbors dist prev []
              with ⟨dist', prev', pushed⟩
            rw [hRel] at hkv
            dsimp only at hkv
            have hqp : ∀ p ∈ rest ++ pushed, ∀ nx, jsGet g.nodes p.1 = some nx → nx.floor = F := by
              intro p hp
              rcases List.mem_append.mp hp with hp | hp
              · exact hrestq p hp
              · have := relaxAll_pushed (cur :: visited) cur cd neighbors dist prev [] p
                  (by rw [hRel]; exact hp)
                rcases this with h | ⟨w, hw⟩
                · simp at h
                · intro nx hnx
                  have hmem := mem_of_jsGet_eq_some hadj
                  have hall := (List.all_eq_true.mp hfl) _ hmem
                  have hnb := (List.all_eq_true.mp hall) _ hw
                  rw [hnc, hnx] at hnb
                  simp at hnb
                  rw [← hnb]
                  exact hncF
            have hprev' : ∀ kv ∈ prev', ∀ y, kv.2 = some y →
                ∃ ny, jsGet g.nodes y = some ny ∧ ny.floor = F := by
              intro kv' hkv' y hy
              have := relaxAll_prev (cur :: visited) cur cd neighbors dist prev [] kv'
                (by rw [hRel]; exact hkv')
              rcases this with h | h
              · exact hprev kv' h y hy
              · rw [h] at hy
                have : y = cur := by simpa using hy.symm
                subst this
                exact ⟨nc, hnc, hncF⟩
            exact ih (rest ++ pushed) (cur :: visited) dist' prev' hqp hprev' kv hkv

/-- Every identifier collected by path reconstruction satisfies any
property satisfied by the initial cursor, the accumulator, and every
recorded predecessor. -/
theorem buildPath_good (P : String → Prop) :
    ∀ (fuel : Nat) (prev : List (String × Option String)) (cur : Option String)
      (acc : List String),
    (∀ kv ∈ prev, ∀ y, kv.2 = some y → P y) →
    (∀ y, cur = some y → P y) →
    (∀ x ∈ acc, P x) →
    ∀ x ∈ buildPath fuel prev cur acc, P x := by
  intro fuel
  induction fuel with
  | zero => intro prev cur acc hprev hcur hacc x hx; exact hacc x (by simpa [buildPath] using hx)
  | succ n ih =>
    intro prev cur acc hprev hcur hacc x hx
    cases cur with
    | none => exact hacc x (by simpa [buildPath] using hx)
    | some c =>
      rw [buildPath] at hx
      refine ih prev (jsOrNullStr (jsGet prev c)) (c :: acc) hprev ?_ ?_ x hx
      · intro y hy
        cases hc : jsGet prev c with
        | none => rw [hc] at hy; simp [jsOrNullStr] at hy
        | some v =>
          rw [hc] at hy
          cases v with
          | none => simp [jsOrNullStr] at hy
          | some z =>
            by_cases hz : z = ""
            · simp [jsOrNullStr, hz] at hy
            · simp [jsOrNullStr, hz] at hy
              cases hy
              exact hprev _ (mem_of_jsGet_eq_some hc) _ rfl
      · intro z hz
        rcases List.mem_cons.mp hz with h | h
        · rw [h]; exact hcur c rfl
        · exact hacc z h

/-- The initialisation loop only records null predecessors. -/
theorem initDistPrev_prev_none :
    ∀ (l : List (String × Node)) (f : Int)
      (acc : List (String × JsNum) × List (String × Option String)),
    (∀ kv ∈ acc.2, kv.2 = none) →
    ∀ kv ∈ (initDistPrev l f acc).2, kv.2 = none := by
  intro l
  induction l with
  | nil => intro f acc h kv hkv; exact h kv (by simpa [initDistPrev] using hkv)
  | cons p rest ih =>
    intro f acc h kv hkv
    rw [initDistPrev] at hkv
    by_cases hp : p.2.floor = f
    · rw [if_pos hp] at hkv
      refine ih f _ ?_ kv hkv
      intro kv' hkv'
      rcases mem_jsSet hkv' with h' | h'
      · rw [h']
      · exact h kv' h'
    · rw [if_neg hp] at hkv
      exact ih f acc h kv hkv

/-- C3 amended: the same-floor search initialises only the start
floor, but its relaxation follows every adjacency edge; when every
adjacency edge of the graph connects known nodes of equal floor (no
cross-floor edges) — and adjacency keys are known, as construction
guarantees — every identifier in the returned path is a known node on
the endpoints' floor.  The counterexample shows the unconditioned claim
is false. -/
theorem getSameFloorPath_floor_restricted (g : Graph) (s e : String) (ns ne : Node)
    (hs : jsGet g.nodes s = some ns) (he : jsGet g.nodes e = some ne)
    (hf : ne.floor = ns.floor)
    (hk : adjKeysKnown g = true) (hfl : sameFloorEdges g = true)
    (pr : PathResult) (h : getSameFloorPath g s e = some pr) :
    ∀ x ∈ pr.path, ∃ nx, jsGet g.nodes x = some nx ∧ nx.floor = ns.floor := by
  rw [getSameFloorPath, hs, he] at h
  dsimp only at h
  rcases hI : initDistPrev g.nodes ns.floor ([], []) with ⟨dist0, prev0⟩
  rw [hI] at h
  dsimp only at h
  rcases hD : dijkstraLoop g e (loopFuel g) [(s, 0)] [] (jsSet dist0 s (JsNum.fin 0)) prev0
    with ⟨dist, prev⟩
  rw [hD] at h
  dsimp only at h
  have hprev0 : ∀ kv ∈ prev0, ∀ y, kv.2 = some y →
      ∃ ny, jsGet g.nodes y = some ny ∧ ny.floor = ns.floor := by
    intro kv hkv y hy
    have : kv.2 = none := initDistPrev_prev_none g.nodes ns.floor ([], [])
      (by intro kv' h'; simp at h') kv (by rw [hI]; exact hkv)
    rw [this] at hy
    simp at hy
  have hgood : ∀ kv ∈ prev, ∀ y, kv.2 = some y →
      ∃ ny, jsGet g.nodes y = some ny ∧ ny.floor = ns.floor := by
    intro kv hkv
    refine dijkstraLoop_prev_good g e ns.floor hk hfl (loopFuel g) [(s, 0)] []
      (jsSet dist0 s (JsNum.fin 0)) prev0 ?_ hprev0 kv (by rw [hD]; exact hkv)
    intro p hp nx hnx
    simp at hp
    subst hp
    rw [hs] at hnx
    simp at hnx
    rw [← hnx]
  split at h
  · exact absurd h (by simp)
  · have hpr : pr.path = buildPath (buildFuel g) prev (some e) [] := by
      have := Option.some.inj h
      rw [← this]
    rw [hpr]
    exact buildPath_good _ (buildFuel g) prev (some e) [] hgood
      (by intro y hy; cases hy; exact ⟨ne, he, hf⟩)
      (by intro x hx; simp at hx)

/-- Witness for the amended C3 at a one-floor graph. -/
theorem getSameFloorPath_floor_restricted_witness :
    getSameFloorPath gW3 ("A") ("B") =
      some ⟨[("A"), ("B")], JsNum.fin 2, false, none, none⟩ ∧
    ∀ x ∈ [("A"), ("B")], ∃ nx, jsGet gW3.nodes x = some nx ∧ nx.floor = 1 := by
  refine ⟨by decide, ?_⟩
  have h := getSameFloorPath_floor_restricted gW3 ("A") ("B")
    (mkNode ("A") 1 ("room") ("A")) (mkNode ("B") 1 ("room") ("B"))
    (by decide) (by decide) (by decide) (by decide) (by decide)
    ⟨[("A"), ("B")], JsNum.fin 2, false, none, none⟩ (by decide)
  exact h

/-- `addEdge` never creates or removes adjacency keys. -/
theorem graphAddEdge_keys (adj : List (String × List (String × ℚ))) (f t : String) (d : ℚ)
    (k : String) : (jsGet (graphAddEdge adj f t d) k).isSome = (jsGet adj k).isSome := by
  rw [graphAddEdge]
  cases hf : jsGet adj f with
  | none => rfl
  | some inner =>
    by_cases hk : k = f
    · subst hk
      rw [jsGet_jsSet_self, hf]
      rfl
    · rw [jsGet_jsSet_ne _ _ hk]

/-- The edge loop never creates or removes adjacency keys. -/
theorem foldEdges_keys :
    ∀ (es : List Edge) (adj : List (String × List (String × ℚ))) (k : String),
    (jsGet (foldEdges es adj) k).isSome = (jsGet adj k).isSome := by
  intro es
  induction es with
  | nil => intro adj k; rfl
  | cons e rest ih =>
    intro adj k
    rw [foldEdges, ih, applyEdge, graphAddEdge_keys, graphAddEdge_keys]

/-- The node loop keeps the node index and the adjacency index on the
same key set. -/
theorem foldNodes_keys :
    ∀ (ns : List Node) (acc : List (String × Node) × List (String × List (String × ℚ))),
    (∀ k, (jsGet acc.1 k).isSome ↔ (jsGet acc.2 k).isSome) →
    ∀ k, (jsGet (foldNodes ns acc).1 k).isSome ↔ (jsGet (foldNodes ns acc).2 k).isSome := by
  intro ns
  induction ns with
  | nil => intro acc h k; exact h k
  | cons n rest ih =>
    intro acc h k
    rw [foldNodes]
    refine ih _ ?_ k
    intro k'
    rw [Bool.eq_iff_iff.mp (by rfl : (jsGet (jsSet acc.1 n.node_id n) k').isSome =
      (jsGet (jsSet acc.1 n.node_id n) k').isSome)]
    constructor
    · intro hh
      rcases (jsGet_jsSet_isSome acc.1 n.node_id k' n).mp hh with h' | h'
      · exact (jsGet_jsSet_isSome acc.2 n.node_id k' []).mpr (Or.inl h')
      · exact (jsGet_jsSet_isSome acc.2 n.node_id k' []).mpr (Or.inr ((h k').mp h'))
    · intro hh
      rcases (jsGet_jsSet_isSome acc.2 n.node_id k' []).mp hh with h' | h'
      · exact (jsGet_jsSet_isSome acc.1 n.node_id k' n).mpr (Or.inl h')
      · exact (jsGet_jsSet_isSome acc.1 n.node_id k' n).mpr (Or.inr ((h k').mpr h'))

/-- `addEdge` preserves any existing inner binding. -/
theorem graphAddEdge_preserve {adj : List (String × List (String × ℚ))}
    {u x : String} {inner : List (String × ℚ)} (f t : String) (d : ℚ)
    (h1 : jsGet adj u = some inner) (h2 : (jsGet inner x).isSome = true) :
    ∃ inner', jsGet (graphAddEdge adj f t d) u = some inner' ∧ (jsGet inner' x).isSome = true := by
  rw [graphAddEdge]
  cases hf : jsGet adj f with
  | none => exact ⟨inner, h1, h2⟩
  | some innF =>
    by_cases hu : u = f
    · subst hu
      rw [hf] at h1
      cases h1
      refine ⟨jsSet inner t d, jsGet_jsSet_self _ _ _, ?_⟩
      by_cases hx : x = t
      · subst hx
        rw [jsGet_jsSet_self]
        rfl
      · rw [jsGet_jsSet_ne _ _ hx]
        exact h2
    · exact ⟨inner, by rw [jsGet_jsSet_ne _ _ hu]; exact h1, h2⟩

/-- `addEdge` with a known source records the target as a neighbor. -/
theorem graphAddEdge_creates {adj : List (String × List (String × ℚ))} {f : String}
    (t : String) (d : ℚ) (h : (jsGet adj f).isSome = true) :
    ∃ inner', jsGet (graphAddEdge adj f t d) f = some inner' ∧ (jsGet inner' t).isSome = true := by
  rw [graphAddEdge]
  cases hf : jsGet adj f with
  | none => rw [hf] at h; simp at h
  | some inner =>
    exact ⟨jsSet inner t d, jsGet_jsSet_self _ _ _, by rw [jsGet_jsSet_self]; rfl⟩

/-- The edge loop preserves any existing inner binding. -/
theorem foldEdges_preserve :
    ∀ (es : List Edge) (adj : List (String × List (String × ℚ))) (u x : String)
      (inner : List (String × ℚ)),
    jsGet adj u = some inner → (jsGet inner x).isSome = true →
    ∃ inner', jsGet (foldEdges es adj) u = some inner' ∧ (jsGet inner' x).isSome = true := by
  intro es
  induction es with
  | nil => intro adj u x inner h1 h2; exact ⟨inner, h1, h2⟩
  | cons e rest ih =>
    intro adj u x inner h1 h2
    rw [foldEdges, applyEdge]
    obtain ⟨i1, hi1, hx1⟩ := graphAddEdge_preserve e.from_ e.to_ e.distance h1 h2
    obtain ⟨i2, hi2, hx2⟩ := graphAddEdge_preserve e.to_ e.from_ e.distance hi1 hx1
    exact ih _ u x i2 hi2 hx2

/-- Every edge of the input whose source is an adjacency key ends up
recorded under that key. -/
theorem foldEdges_mem :
    ∀ (es : List Edge) (adj : List (String × List (String × ℚ))),
    ∀ e ∈ es, (jsGet adj e.from_).isSome = true →
    ∃ inner, jsGet (foldEdges es adj) e.from_ = some inner ∧ (jsGet inner e.to_).isSome = true := by
  intro es
  induction es with
  | nil => intro adj e he; simp at he
  | cons e0 rest ih =>
    intro adj e he hknown
    rcases List.mem_cons.mp he with he | he
    · subst he
      rw [foldEdges, applyEdge]
      obtain ⟨i1, hi1, hx1⟩ := graphAddEdge_creates e.to_ e.distance hknown
      obtain ⟨i2, hi2, hx2⟩ := graphAddEdge_preserve e.to_ e.from_ e.distance hi1 hx1
      exact foldEdges_preserve rest _ e.from_ e.to_ i2 hi2 hx2
    · rw [foldEdges]
      refine ih _ e he ?_
      rw [applyEdge, graphAddEdge_keys, graphAddEdge_keys]
      exact hknown

/-- C4 amended: construction creates adjacency entries exactly under
the node-index keys — so an edge whose source endpoint is unknown
contributes nothing in that direction (and an edge with both endpoints
unknown is fully inert) — but for a known source endpoint the edge is
recorded even when the target endpoint is unknown, so neighbor keys may
reference nodes absent from the index (refuted by the counterexample:
the original claim said no entry is created in either direction). -/
theorem mkGraph_adjacency_keys_known (ns : List Node) (es : List Edge) :
    (∀ k, (jsGet (mkGraph ns es).adjacencyList k).isSome ↔ (jsGet (mkGraph ns es).nodes k).isSome) ∧
    (∀ e ∈ es, (jsGet (mkGraph ns es).nodes e.from_).isSome = true →
      ∃ inner, jsGet (mkGraph ns es).adjacencyList e.from_ = some inner ∧
        (jsGet inner e.to_).isSome = true) := by
  have hinit : ∀ k, (jsGet (foldNodes ns ([], [])).1 k).isSome ↔
      (jsGet (foldNodes ns ([], [])).2 k).isSome :=
    foldNodes_keys ns ([], []) (by intro k; simp [jsGet])
  constructor
  · intro k
    show (jsGet (foldEdges es (foldNodes ns ([], [])).2) k).isSome ↔ _
    rw [foldEdges_keys]
    exact (hinit k).symm
  · intro e he hknown
    refine foldEdges_mem es (foldNodes ns ([], [])).2 e he ?_
    exact (hinit e.from_).mp hknown

/-- Witness for the amended C4 at the dangling-edge input. -/
theorem mkGraph_adjacency_keys_known_witness :
    ((jsGet gC4.adjacencyList ("A")).isSome ↔ (jsGet gC4.nodes ("A")).isSome) ∧
    (∃ inner, jsGet gC4.adjacencyList ("A") = some inner ∧ (jsGet inner ("X")).isSome = true) := by
  constructor
  · exact (mkGraph_adjacency_keys_known [mkNode ("A") 1 ("room") ("A")] [⟨"A", "X", 1⟩]).1 ("A")
  · exact (mkGraph_adjacency_keys_known [mkNode ("A") 1 ("room") ("A")] [⟨"A", "X", 1⟩]).2
      ⟨"A", "X", 1⟩ (by decide) (by decide)

/-- The stair-only push never exceeds the neighbor count. -/
theorem stairPushes_length (g : Graph) :
    ∀ l : List (String × ℚ), (stairPushes g l).length ≤ l.length := by
  intro l
  induction l with
  | nil => simp [stairPushes]
  | cons nb rest ih =>
    rw [stairPushes]
    cases h : jsGet g.nodes nb.1 with
    | none => exact Nat.le_succ_of_le ih
    | some n =>
      dsimp only
      by_cases ht : n.type = stairType
      · rw [if_pos ht]
        simpa using ih
      · rw [if_neg ht]
        exact Nat.le_succ_of_le ih

/-- Membership in the stair-only push. -/
theorem mem_stairPushes (g : Graph) (x : String) :
    ∀ l : List (String × ℚ),
    x ∈ stairPushes g l ↔ ∃ w nx, (x, w) ∈ l ∧ jsGet g.nodes x = some nx ∧ nx.type = stairType := by
  intro l
  induction l with
  | nil => simp [stairPushes]
  | cons nb rest ih =>
    rw [stairPushes]
    cases h : jsGet g.nodes nb.1 with
    | none =>
      rw [ih]
      constructor
      · rintro ⟨w, nx, hw, hx, ht⟩
        exact ⟨w, nx, List.mem_cons_of_mem _ hw, hx, ht⟩
      · rintro ⟨w, nx, hw, hx, ht⟩
        rcases List.mem_cons.mp hw with hw | hw
        · exfalso
          have hnb : nb.1 = x := by rw [← hw]
          rw [hnb, hx] at h
          cases h
        · exact ⟨w, nx, hw, hx, ht⟩
    | some n =>
      dsimp only
      by_cases ht : n.type = stairType
      · rw [if_pos ht]
        constructor
        · intro hx
          rcases List.mem_cons.mp hx with hx | hx
          · subst hx
            exact ⟨nb.2, n, by simp, h, ht⟩
          · rcases ih.mp hx with ⟨w, nx, hw, hx', ht'⟩
            exact ⟨w, nx, List.mem_cons_of_mem _ hw, hx', ht'⟩
        · rintro ⟨w, nx, hw, hx, ht'⟩
          rcases List.mem_cons.mp hw with hw | hw
          · have hnb : nb.1 = x := by rw [← hw]
            simp [hnb]
          · exact List.mem_cons_of_mem _ (ih.mpr ⟨w, nx, hw, hx, ht'⟩)
      · rw [if_neg ht]
        rw [ih]
        constructor
        · rintro ⟨w, nx, hw, hx, ht'⟩
          exact ⟨w, nx, List.mem_cons_of_mem _ hw, hx, ht'⟩
        · rintro ⟨w, nx, hw, hx, ht'⟩
          rcases List.mem_cons.mp hw with hw | hw
          · exfalso
            have hnb : nb.1 = x := by rw [← hw]
            rw [hnb, hx] at h
            cases h
            exact ht ht'
          · exact ⟨w, nx, hw, hx, ht'⟩

/-- Shrinking the visited filter never increases the weighted sum. -/
theorem sum_filter_anti (f : String → Nat) (c : String) (vis : List String) :
    ∀ l : List String,
    ((l.filter (fun k => !(strMem k (c :: vis)))).map f).sum ≤
      ((l.filter (fun k => !(strMem k vis))).map f).sum := by
  intro l
  induction l with
  | nil => simp
  | cons a rest ih =>
    have hsm : strMem a (c :: vis) = if c = a then true else strMem a vis := by rw [strMem]
    by_cases hca : c = a
    · rw [List.filter_cons, List.filter_cons, hsm, if_pos hca]
      simp only [Bool.not_true, Bool.false_eq_true, if_false]
      by_cases hv : strMem a vis
      · rw [hv]
        simpa using ih
      · rw [Bool.not_eq_true] at hv
        rw [hv]
        simp only [Bool.not_false, if_true, List.map_cons, List.sum_cons]
        exact le_add_of_nonneg_of_le (Nat.zero_le _) ih
    · rw [List.filter_cons, List.filter_cons, hsm, if_neg hca]
      by_cases hv : strMem a vis
      · rw [hv]
        simpa using ih
      · rw [Bool.not_eq_true] at hv
        rw [hv]
        simp only [Bool.not_false, if_true, List.map_cons, List.sum_cons]
        exact Nat.add_le_add_left ih _

/-- Newly visiting a present, unvisited key removes at least its own
weight from the potential. -/
theorem sum_filter_remove (f : String → Nat) (c : String) (vis : List String) :
    ∀ l : List String, c ∈ l → strMem c vis = false →
    ((l.filter (fun k => !(strMem k (c :: vis)))).map f).sum + f c ≤
      ((l.filter (fun k => !(strMem k vis))).map f).sum := by
  intro l
  induction l with
  | nil => intro h; simp at h
  | cons a rest ih =>
    intro hc hv
    have hsm : strMem a (c :: vis) = if c = a then true else strMem a vis := by rw [strMem]
    by_cases hca : c = a
    · subst hca
      rw [List.filter_cons, List.filter_cons, hsm, if_pos rfl, hv]
      simp only [Bool.not_true, Bool.false_eq_true, if_false, Bool.not_false, if_true,
        List.map_cons, List.sum_cons]
      have := sum_filter_anti f c vis rest
      omega
    · have hcrest : c ∈ rest := by
        rcases List.mem_cons.mp hc with h | h
        · exact absurd h hca
        · exact h
      rw [List.filter_cons, List.filter_cons, hsm, if_neg hca]
      by_cases hav : strMem a vis
      · rw [hav]
        simpa using ih hcrest hv
      · rw [Bool.not_eq_true] at hav
        rw [hav]
        simp only [Bool.not_false, if_true, List.map_cons, List.sum_cons]
        have := ih hcrest hv
        omega

/-- Visiting a key absent from the list leaves the potential unchanged. -/
theorem sum_filter_absent (f : String → Nat) (c : String) (vis : List String) :
    ∀ l : List String, c ∉ l →
    ((l.filter (fun k => !(strMem k (c :: vis)))).map f).sum =
      ((l.filter (fun k => !(strMem k vis))).map f).sum := by
  intro l
  induction l with
  | nil => intro; simp
  | cons a rest ih =>
    intro hc
    have hca : c ≠ a := fun h => hc (by rw [h]; simp)
    have hcrest : c ∉ rest := fun h => hc (List.mem_cons_of_mem _ h)
    have hsm : strMem a (c :: vis) = strMem a vis := by rw [strMem, if_neg hca]
    rw [List.filter_cons, List.filter_cons, hsm]
    by_cases hav : strMem a vis
    · rw [hav]
      simp only [Bool.not_true, Bool.false_eq_true, if_false]
      exact ih hcrest
    · rw [Bool.not_eq_true] at hav
      rw [hav]
      simp only [Bool.not_false, if_true, List.map_cons, List.sum_cons, ih hcrest]

/-- Fuel-sufficiency potential: a visited unknown identifier does not
change the potential. -/
theorem remAdj_unknown (g : Graph) (c : String) (vis : List String)
    (h : jsGet g.nodes c = none) : remAdj g (c :: vis) = remAdj g vis := by
  rw [remAdj, remAdj]
  exact sum_filter_absent (degOf g) c vis (nodeKeys g) ((jsGet_eq_none_iff _ _).mp h)

/-- The potential never grows when a node is visited. -/
theorem remAdj_anti (g : Graph) (c : String) (vis : List String) :
    remAdj g (c :: vis) ≤ remAdj g vis :=
  sum_filter_anti (degOf g) c vis (nodeKeys g)

/-- Visiting a known unvisited node pays for its whole adjacency list. -/
theorem remAdj_remove (g : Graph) (c : String) (vis : List String)
    (hc : c ∈ nodeKeys g) (hv : strMem c vis = false) :
    remAdj g (c :: vis) + degOf g c ≤ remAdj g vis :=
  sum_filter_remove (degOf g) c vis (nodeKeys g) hc hv

/-- The stair BFS cannot run out of fuel above the potential. -/
theorem stairLoop_ne_none (g : Graph) (f : Int) :
    ∀ (fuel : Nat) (q vis : List String), q.length + remAdj g vis < fuel →
    stairLoop g f fuel q vis ≠ none := by
  intro fuel
  induction fuel with
  | zero => intro q vis h; omega
  | succ m ih =>
    intro q vis h
    match q with
    | [] => simp [stairLoop]
    | cur :: qrest =>
      rw [stairLoop]
      by_cases hv : strMem cur vis
      · rw [if_pos hv]
        refine ih qrest vis ?_
        simp at h
        omega
      · rw [if_neg hv]
        cases hn : jsGet g.nodes cur with
        | none =>
          have hrem := remAdj_unknown g cur vis hn
          refine ih qrest (cur :: vis) ?_
          simp at h
          omega
        | some cs =>
          dsimp only
          by_cases hf : cs.floor = f
          · rw [if_pos hf]
            simp
          · rw [if_neg hf]
            cases hadj : jsGet g.adjacencyList cur with
            | none =>
              have hrem := remAdj_anti g cur vis
              refine ih qrest (cur :: vis) ?_
              simp at h
              omega
            | some nbrs =>
              have hkey : cur ∈ nodeKeys g := by
                have := mem_of_jsGet_eq_some hn
                exact List.mem_map.mpr ⟨(cur, cs), this, rfl⟩
              have hdeg : degOf g cur = nbrs.length := by rw [degOf, hadj]; rfl
              have hrem := remAdj_remove g cur vis hkey (Bool.not_eq_true _ ▸ hv)
              have hpl := stairPushes_length g nbrs
              refine ih (qrest ++ stairPushes g nbrs) (cur :: vis) ?_
              simp at h
              rw [List.length_append]
              omega

/-- Soundness of the stair BFS: a `true` answer exhibits a reachable
known node on the target floor, given that every queue entry is
reachable. -/
theorem stairLoop_sound (g : Graph) (f : Int) (s : String) :
    ∀ (fuel : Nat) (q vis : List String),
    (∀ x ∈ q, StairReach g s x) →
    stairLoop g f fuel q vis = some true →
    ∃ v nv, StairReach g s v ∧ jsGet g.nodes v = some nv ∧ nv.floor = f := by
  intro fuel
  induction fuel with
  | zero => intro q vis hq heq; simp [stairLoop] at heq
  | succ m ih =>
    intro q vis hq heq
    match q with
    | [] => simp [stairLoop] at heq
    | cur :: qrest =>
      rw [stairLoop] at heq
      have hqrest : ∀ x ∈ qrest, StairReach g s x :=
        fun x hx => hq x (List.mem_cons_of_mem _ hx)
      have hcur : StairReach g s cur := hq cur (by simp)
      by_cases hv : strMem cur vis
      · rw [if_pos hv] at heq
        exact ih qrest vis hqrest heq
      · rw [if_neg hv] at heq
        cases hn : jsGet g.nodes cur with
        | none =>
          rw [hn] at heq
          exact ih qrest (cur :: vis) hqrest heq
        | some cs =>
          rw [hn] at heq
          dsimp only at heq
          by_cases hf : cs.floor = f
          · exact ⟨cur, cs, hcur, hn, hf⟩
          · rw [if_neg hf] at heq
            cases hadj : jsGet g.adjacencyList cur with
            | none =>
              rw [hadj] at heq
              exact ih qrest (cur :: vis) hqrest heq
            | some nbrs =>
              rw [hadj] at heq
              refine ih (qrest ++ stairPushes g nbrs) (cur :: vis) ?_ heq
              intro x hx
              rcases List.mem_append.mp hx with hx | hx
              · exact hqrest x hx
              · rcases (mem_stairPushes g x nbrs).mp hx with ⟨w, nx, hw, hxn, ht⟩
                exact StairReach.step hcur hn hadj hw hxn ht

/-- Completeness of the stair BFS: a `false` answer, starting from a
state whose visited set is floor-clean and closed up to the queue and
contains-or-queues the start, excludes any reachable known node on the
target floor. -/
theorem stairLoop_complete (g : Graph) (f : Int) (s : String) :
    ∀ (fuel : Nat) (q vis : List String),
    (∀ u ∈ vis, ∀ nu, jsGet g.nodes u = some nu → nu.floor ≠ f) →
    (∀ u ∈ vis, ∀ nu, jsGet g.nodes u = some nu → ∀ nbrs, jsGet g.adjacencyList u = some nbrs →
      ∀ v w, (v, w) ∈ nbrs → ∀ nv, jsGet g.nodes v = some nv → nv.type = stairType →
      (v ∈ vis ∨ v ∈ q)) →
    (s ∈ vis ∨ s ∈ q) →
    stairLoop g f fuel q vis = some false →
    ∀ x, StairReach g s x → ∀ nx, jsGet g.nodes x = some nx → nx.floor ≠ f := by
  intro fuel
  induction fuel with
  | zero => intro q vis h1 h2 h3 heq; simp [stairLoop] at heq
  | succ m ih =>
    intro q vis h1 h2 h3 heq
    match q with
    | [] =>
      have hs : s ∈ vis := by
        rcases h3 with h | h
        · exact h
        · simp at h
      have hclosed : ∀ x, StairReach g s x → x ∈ vis := by
        intro x hx
        induction hx with
        | refl => exact hs
        | step hr hu hadj hw hv ht ihr =>
          rcases h2 _ ihr _ hu _ hadj _ _ hw _ hv ht with h | h
          · exact h
          · simp at h
      intro x hx nx hnx
      exact h1 x (hclosed x hx) nx hnx
    | cur :: qrest =>
      rw [stairLoop] at heq
      by_cases hv : strMem cur vis
      · rw [if_pos hv] at heq
        have hcv : cur ∈ vis := (strMem_iff_mem cur vis).mp hv
        refine ih qrest vis h1 ?_ ?_ heq
        · intro u hu nu hnu nbrs hnbrs v w hw nv hnv ht
          rcases h2 u hu nu hnu nbrs hnbrs v w hw nv hnv ht with h | h
          · exact Or.inl h
          · rcases List.mem_cons.mp h with h | h
            · exact Or.inl (h ▸ hcv)
            · exact Or.inr h
        · rcases h3 with h | h
          · exact Or.inl h
          · rcases List.mem_cons.mp h with h | h
            · exact Or.inl (h ▸ hcv)
            · exact Or.inr h
      · rw [if_neg hv] at heq
        cases hn : jsGet g.nodes cur with
        | none =>
          rw [hn] at heq
          refine ih qrest (cur :: vis) ?_ ?_ ?_ heq
          · intro u hu nu hnu
            rcases List.mem_cons.mp hu with h | h
            · rw [h, hn] at hnu; cases hnu
            · exact h1 u h nu hnu
          · intro u hu nu hnu nbrs hnbrs v w hw nv hnv ht
            rcases List.mem_cons.mp hu with h | h
            · rw [h, hn] at hnu; cases hnu
            · rcases h2 u h nu hnu nbrs hnbrs v w hw nv hnv ht with h' | h'
              · exact Or.inl (List.mem_cons_of_mem _ h')
              · rcases List.mem_cons.mp h' with h' | h'
                · exact Or.inl (by rw [h']; simp)
                · exact Or.inr h'
          · rcases h3 with h | h
            · exact Or.inl (List.mem_cons_of_mem _ h)
            · rcases List.mem_cons.mp h with h | h
              · exact Or.inl (by rw [h]; simp)
              · exact Or.inr h
        | some cs =>
          rw [hn] at heq
          dsimp only at heq
          by_cases hf : cs.floor = f
          · rw [if_pos hf] at heq
            cases heq
          · rw [if_neg hf] at heq
            have h1' : ∀ u ∈ cur :: vis, ∀ nu, jsGet g.nodes u = some nu → nu.floor ≠ f := by
              intro u hu nu hnu
              rcases List.mem_cons.mp hu with h | h
              · rw [h, hn] at hnu
                cases hnu
                exact hf
              · exact h1 u h nu hnu
            cases hadj : jsGet g.adjacencyList cur with
            | none =>
              rw [hadj] at heq
              refine ih qrest (cur :: vis) h1' ?_ ?_ heq
              · intro u hu nu hnu nbrs hnbrs v w hw nv hnv ht
                rcases List.mem_cons.mp hu with h | h
                · rw [h] at hnbrs
                  rw [hadj] at hnbrs
                  cases hnbrs
                · rcases h2 u h nu hnu nbrs hnbrs v w hw nv hnv ht with h' | h'
                  · exact Or.inl (List.mem_cons_of_mem _ h')
                  · rcases List.mem_cons.mp h' with h' | h'
                    · exact Or.inl (by rw [h']; simp)
                    · exact Or.inr h'
              · rcases h3 with h | h
                · exact Or.inl (List.mem_cons_of_mem _ h)
                · rcases List.mem_cons.mp h with h | h
                  · exact Or.inl (by rw [h]; simp)
                  · exact Or.inr h
            | some nbrs =>
              rw [hadj] at heq
              refine ih (qrest ++ stairPushes g nbrs) (cur :: vis) h1' ?_ ?_ heq
              · intro u hu nu hnu nbrs' hnbrs v w hw nv hnv ht
                rcases List.mem_cons.mp hu with h | h
                · rw [h] at hnbrs
                  rw [hadj] at hnbrs
                  cases hnbrs
                  refine Or.inr (List.mem_append.mpr (Or.inr ?_))
                  exact (mem_stairPushes g v nbrs).mpr ⟨w, nv, hw, hnv, ht⟩
                · rcases h2 u h nu hnu nbrs' hnbrs v w hw nv hnv ht with h' | h'
                  · exact Or.inl (List.mem_cons_of_mem _ h')
                  · rcases List.mem_cons.mp h' with h' | h'
                    · exact Or.inl (by rw [h']; simp)
                    · exact Or.inr (List.mem_append.mpr (Or.inl h'))
              · rcases h3 with h | h
                · exact Or.inl (List.mem_cons_of_mem _ h)
                · rcases List.mem_cons.mp h with h | h
                  · exact Or.inl (by rw [h]; simp)
                  · exact Or.inr (List.mem_append.mpr (Or.inl h))

/-- C6: the connectivity probe returns true exactly when some known
node whose floor is the target floor is reachable from the start
identifier through adjacency edges whose neighbor endpoint is a known
stair-category node (`StairReach`); in particular a start node on the
target floor is reachable in zero hops, and the probe returns false
exactly when the traversal exhausts without such a node. -/
theorem canStairReachFloor_iff_stairReach (g : Graph) (s : String) (f : Int) :
    canStairReachFloor g s f = true ↔
    ∃ v nv, StairReach g s v ∧ jsGet g.nodes v = some nv ∧ nv.floor = f := by
  have hne : stairLoop g f (loopFuel g) [s] [] ≠ none := by
    refine stairLoop_ne_none g f (loopFuel g) [s] [] ?_
    rw [loopFuel]
    show 1 + remAdj g [] < remAdj g [] + 2
    omega
  rw [canStairReachFloor]
  cases hres : stairLoop g f (loopFuel g) [s] [] with
  | none => exact absurd hres hne
  | some b =>
    cases b with
    | true =>
      simp only [Option.getD_some, true_iff]
      refine stairLoop_sound g f s (loopFuel g) [s] [] ?_ hres
      intro x hx
      simp at hx
      rw [hx]
      exact StairReach.refl
    | false =>
      simp only [Option.getD_some, Bool.false_eq_true, false_iff]
      rintro ⟨v, nv, hr, hv, hfv⟩
      have := stairLoop_complete g f s (loopFuel g) [s] []
        (by intro u hu; simp at hu)
        (by intro u hu; simp at hu)
        (Or.inr (by simp)) hres v hr nv hv
      exact this hfv

/-- The initialisation loop preserves existing predecessor keys. -/
theorem initDistPrev_key_mono :
    ∀ (l : List (String × Node)) (f : Int)
      (acc : List (String × JsNum) × List (String × Option String)) (k : String),
    (jsGet acc.2 k).isSome = true → (jsGet (initDistPrev l f acc).2 k).isSome = true := by
  intro l
  induction l with
  | nil => intro f acc k h; simpa [initDistPrev] using h
  | cons p rest ih =>
    intro f acc k h
    rw [initDistPrev]
    by_cases hp : p.2.floor = f
    · rw [if_pos hp]
      exact ih f _ k ((jsGet_jsSet_isSome acc.2 p.1 k none).mpr (Or.inr h))
    · rw [if_neg hp]
      exact ih f acc k h

/-- A node of the initialisation floor obtains a predecessor binding. -/
theorem initDistPrev_key_isSome :
    ∀ (l : List (String × Node)) (f : Int)
      (acc : List (String × JsNum) × List (String × Option String)) (A : String) (nA : Node),
    (A, nA) ∈ l → nA.floor = f → (jsGet (initDistPrev l f acc).2 A).isSome = true := by
  intro l
  induction l with
  | nil => intro f acc A nA h; simp at h
  | cons p rest ih =>
    intro f acc A nA hmem hf
    rw [initDistPrev]
    rcases List.mem_cons.mp hmem with h | h
    · have hp : p.2.floor = f := by rw [← h, hf]
      rw [if_pos hp]
      refine initDistPrev_key_mono rest f _ A ?_
      have hA : p.1 = A := by rw [← h]
      rw [hA, jsGet_jsSet_self]
      rfl
    · by_cases hp : p.2.floor = f
      · rw [if_pos hp]
        exact ih f _ A nA h hf
      · rw [if_neg hp]
        exact ih f acc A nA h hf

/-- Reconstruction from a null cursor returns the accumulator. -/
theorem buildPath_none (fuel : Nat) (prev : List (String × Option String)) (acc : List String) :
    buildPath fuel prev none acc = acc := by
  cases fuel <;> rfl

/-- C1: for every graph and every node `A` present in it, the claim
says `GetShortestPath(A,A)` returns path `[A]` with distance 0.  The
code does return the single-element path `[A]`, but
`distances.get(end) || Infinity` reads the stored distance 0 as falsy,
so the returned distance is Infinity — never 0 — for every self query:
the code contradicts the spec's stated intent. -/
theorem getShortestPath_self_returns_infinite_distance (g : Graph) (A : String) (nA : Node)
    (h : jsGet g.nodes A = some nA) :
    getShortestPath g A A = some ⟨[A], JsNum.inf, false, none, none⟩ ∧
    JsNum.inf ≠ JsNum.fin 0 := by
  refine ⟨?_, by simp⟩
  rw [getShortestPath, h]
  dsimp only
  rw [if_neg (by simp)]
  rw [getSameFloorPath, h]
  dsimp only
  rcases hI : initDistPrev g.nodes nA.floor ([], []) with ⟨dist0, prev0⟩
  dsimp only
  have hlf : loopFuel g = (remAdj g [] + 1) + 1 := by rw [loopFuel]
  rw [hlf, dijkstraLoop]
  have hsort : sortByDist [(A, (0 : ℚ))] = [(A, 0)] := rfl
  rw [hsort]
  dsimp only
  rw [if_neg (show ¬(strMem A ([] : List String) = true) by simp [strMem]), if_pos rfl]
  dsimp only
  have hprevA : jsGet prev0 A = some none := by
    have hisSome : (jsGet prev0 A).isSome = true := by
      have := initDistPrev_key_isSome g.nodes nA.floor ([], []) A nA
        (mem_of_jsGet_eq_some h) rfl
      rw [hI] at this
      exact this
    rcases Option.isSome_iff_exists.mp hisSome with ⟨v, hv⟩
    have hvnone : v = none := by
      have := initDistPrev_prev_none g.nodes nA.floor ([], [])
        (by intro kv hkv; simp at hkv) (A, v)
      rw [hI] at this
      exact this (mem_of_jsGet_eq_some hv)
    rw [hv, hvnone]
  have hbf : buildFuel g = (g.nodes.length + remAdj g [] + 1) + 1 := by
    rw [buildFuel, loopFuel]
    ring
  rw [hbf, buildPath, hprevA]
  have hnull : jsOrNullStr (some none) = none := rfl
  rw [hnull, buildPath_none]
  rw [if_neg (by simp)]
  rw [jsGet_jsSet_self]
  rfl

/-- Witness for C1 at a concrete one-node graph. -/
theorem getShortestPath_self_returns_infinite_distance_witness :
    jsGet gC1.nodes ("A") = some (mkNode ("A") 1 ("room") ("A")) ∧
    getShortestPath gC1 ("A") ("A") = some ⟨[("A")], JsNum.inf, false, none, none⟩ := by
  refine ⟨by decide, ?_⟩
  exact (getShortestPath_self_returns_infinite_distance gC1 ("A")
    (mkNode ("A") 1 ("room") ("A")) (by decide)).1

/-- Supporting fact: every cross-floor request (both endpoints known,
different floors) yields a result — never null — and every branch sets
`floorChange = true` and `targetFloor` to the destination's floor.
(This is the part of the cross-floor error-handling contract the code
does satisfy; the fallback-selection divergence is exhibited
separately.) -/
theorem getShortestPath_cross_floor_total (g : Graph) (s e : String) (ns ne : Node)
    (hs : jsGet g.nodes s = some ns) (he : jsGet g.nodes e = some ne)
    (hf : ns.floor ≠ ne.floor) :
    ∃ pr, getShortestPath g s e = some pr ∧ pr.floorChange = true ∧
      pr.targetFloor = some ne.floor := by
  rw [getShortestPath, hs, he]
  dsimp only
  rw [if_pos hf]
  refine ⟨getCrossFloorPath g ns ne, rfl, ?_⟩
  rw [getCrossFloorPath]
  dsimp only
  split
  · exact ⟨rfl, rfl⟩
  · split
    · exact ⟨rfl, rfl⟩
    · split
      · exact ⟨rfl, rfl⟩
      · exact ⟨rfl, rfl⟩
